import Mathlib

/- Verification of the concurrent ray tracer core: a shallow embedding of the
   geometry, BVH acceleration structure, radiance integrator, tile scheduler
   and direct-lighting code, together with theorems about the properties the
   specification states for them.

   Machine floating-point numbers are modelled by an arbitrary linear ordered
   field (instantiated at the rationals for executable witnesses) for the
   exact-arithmetic parts, and by the real numbers where the code calls
   math.Sqrt. -/

set_option maxHeartbeats 1000000
set_option linter.unusedSectionVars false

namespace RayTrace

/-- Three-component vector, from internal/math/vector.go (type Vec3). -/
structure Vec3 (α : Type) where
  X : α
  Y : α
  Z : α

variable {α : Type} [LinearOrderedField α] {μ : Type}

/-- Componentwise sum, from Vec3.Add. -/
def Vec3.Add (v w : Vec3 α) : Vec3 α := ⟨v.X + w.X, v.Y + w.Y, v.Z + w.Z⟩

/-- Componentwise difference, from Vec3.Sub. -/
def Vec3.Sub (v w : Vec3 α) : Vec3 α := ⟨v.X - w.X, v.Y - w.Y, v.Z - w.Z⟩

/-- Componentwise product, from Vec3.Mul. -/
def Vec3.Mul (v w : Vec3 α) : Vec3 α := ⟨v.X * w.X, v.Y * w.Y, v.Z * w.Z⟩

/-- Scalar multiple, from Vec3.MulScalar. -/
def Vec3.MulScalar (v : Vec3 α) (s : α) : Vec3 α := ⟨v.X * s, v.Y * s, v.Z * s⟩

/-- Scalar quotient, from Vec3.DivScalar. -/
def Vec3.DivScalar (v : Vec3 α) (s : α) : Vec3 α := ⟨v.X / s, v.Y / s, v.Z / s⟩

/-- Dot product, from Vec3.Dot. -/
def Vec3.Dot (v w : Vec3 α) : α := v.X * w.X + v.Y * w.Y + v.Z * w.Z

/-- Squared length, from Vec3.LengthSquared. -/
def Vec3.LengthSquared (v : Vec3 α) : α := v.X * v.X + v.Y * v.Y + v.Z * v.Z

/-- Zero vector, the Go zero value math.Vec3{}. -/
def vzero : Vec3 α := ⟨0, 0, 0⟩

/-- Ray with origin and direction, from internal/geometry/ray.go (type Ray). -/
structure Ray (α : Type) where
  Origin : Vec3 α
  Direction : Vec3 α

/-- Point reached at parameter t, from Ray.At. -/
def Ray.At (r : Ray α) (t : α) : Vec3 α := r.Origin.Add (r.Direction.MulScalar t)

/-- Axis-aligned bounding box, from internal/geometry/ray.go (type AABB). -/
structure AABB (α : Type) where
  Min : Vec3 α
  Max : Vec3 α

/-- Result of a successful intersection, from internal/geometry/ray.go
    (type HitRecord); the Material field of type interface\x7b\x7d is modelled by a
    type parameter. -/
structure HitRecord (α : Type) (μ : Type) where
  T : α
  Point : Vec3 α
  Normal : Vec3 α
  FrontFace : Bool
  Material : μ

/-- The Hittable interface the BVH is built over. Its Hit method is the one
    declared in internal/geometry/ray.go. Modelled from the spec: the
    BoundingBox method called by NewBVH is required by section 6 of the
    specification but its declaration is not among the sources. -/
structure Hittable (α : Type) (μ : Type) where
  Hit : Ray α → α → α → Option (HitRecord α μ)
  BoundingBox : AABB α

/-- Minimum of two scalars, from FastMin. -/
def FastMin (a b : α) : α := if a < b then a else b

/-- Maximum of two scalars, from FastMax. -/
def FastMax (a b : α) : α := if b < a then a else b

/-- Componentwise union of two boxes, from surroundingBox. -/
def surroundingBox (b0 b1 : AABB α) : AABB α :=
  ⟨⟨FastMin b0.Min.X b1.Min.X, FastMin b0.Min.Y b1.Min.Y, FastMin b0.Min.Z b1.Min.Z⟩,
   ⟨FastMax b0.Max.X b1.Max.X, FastMax b0.Max.Y b1.Max.Y, FastMax b0.Max.Z b1.Max.Z⟩⟩

/-- Index of the axis of greatest extent, from longestAxis. -/
def longestAxis (box : AABB α) : ℕ :=
  let extent := box.Max.Sub box.Min
  if extent.Y < extent.X ∧ extent.Z < extent.X then 0
  else if extent.Z < extent.Y then 1
  else 2

/-- Membership of a point in a box, componentwise. -/
def inBox (box : AABB α) (p : Vec3 α) : Prop :=
  box.Min.X ≤ p.X ∧ p.X ≤ box.Max.X ∧
  box.Min.Y ≤ p.Y ∧ p.Y ≤ box.Max.Y ∧
  box.Min.Z ≤ p.Z ∧ p.Z ≤ box.Max.Z

/-- Containment of boxes, componentwise. -/
def AABB.Subset (b c : AABB α) : Prop :=
  c.Min.X ≤ b.Min.X ∧ b.Max.X ≤ c.Max.X ∧
  c.Min.Y ≤ b.Min.Y ∧ b.Max.Y ≤ c.Max.Y ∧
  c.Min.Z ≤ b.Min.Z ∧ b.Max.Z ≤ c.Max.Z

/-- One slab step of the ray-box test: intersect the running parameter
    interval with the interval of parameters whose point lies between lo and
    hi on an axis with ray origin o and direction d on that axis. -/
def slabFold (o d lo hi : α) : Option (α × α) → Option (α × α)
  | none => none
  | some (t0, t1) =>
    if d = 0 then
      if lo ≤ o ∧ o ≤ hi then some (t0, t1) else none
    else
      let ta := (lo - o) / d
      let tb := (hi - o) / d
      let s0 := max t0 (min ta tb)
      let s1 := min t1 (max ta tb)
      if s0 ≤ s1 then some (s0, s1) else none

/-- Ray versus box test used by the BVH traversal. Modelled from the spec:
    the AABB Hit method (reject a node when the ray misses its box on the
    given parameter interval) is called by BVH.Hit but its source is not
    among the files; this is the standard slab test. -/
def aabbHit (box : AABB α) (r : Ray α) (tMin tMax : α) : Bool :=
  (slabFold r.Origin.Z r.Direction.Z box.Min.Z box.Max.Z
    (slabFold r.Origin.Y r.Direction.Y box.Min.Y box.Max.Y
      (slabFold r.Origin.X r.Direction.X box.Min.X box.Max.X
        (if tMin ≤ tMax then some (tMin, tMax) else none)))).isSome

/-- Binary BVH tree, from type BVH in the optimization package: a leaf holds
    one primitive and its box, an inner node two subtrees and their common
    box. -/
inductive BVHTree (α : Type) (μ : Type) where
  | leaf (object : Hittable α μ) (box : AABB α)
  | node (left right : BVHTree α μ) (box : AABB α)

/-- Box stored at the root of a tree. -/
def BVHTree.box : BVHTree α μ → AABB α
  | .leaf _ b => b
  | .node _ _ b => b

/-- Primitives stored at the leaves, in left to right order. -/
def BVHTree.leaves : BVHTree α μ → List (Hittable α μ)
  | .leaf o _ => [o]
  | .node l r _ => l.leaves ++ r.leaves

/-- Every box of the tree contains the bounding box of every primitive
    below it. -/
def BVHTree.goodBoxes : BVHTree α μ → Prop
  | .leaf o b => AABB.Subset o.BoundingBox b
  | .node l r b => l.goodBoxes ∧ r.goodBoxes ∧
      (∀ o ∈ l.leaves, AABB.Subset o.BoundingBox b) ∧
      (∀ o ∈ r.leaves, AABB.Subset o.BoundingBox b)

/-- Recursive BVH construction, from NewBVH: a single primitive becomes a
    leaf; otherwise the union box is computed, longestAxis is computed and
    discarded exactly as in the source, and the list is split at its index
    midpoint without any sorting. The empty list, on which the source would
    index out of range, yields none. -/
def NewBVH : List (Hittable α μ) → Option (BVHTree α μ)
  | [] => none
  | [o] => some (BVHTree.leaf o o.BoundingBox)
  | o :: o2 :: rest =>
    let box := (o2 :: rest).foldl (fun b q => surroundingBox b q.BoundingBox) o.BoundingBox
    let _axis := longestAxis box
    let mid := (o :: o2 :: rest).length / 2
    match NewBVH ((o :: o2 :: rest).take mid), NewBVH ((o :: o2 :: rest).drop mid) with
    | some lt, some rt => some (BVHTree.node lt rt box)
    | _, _ => none
termination_by l => l.length
decreasing_by
  · simp [List.length_take]
    omega
  · simp
    omega

/-- Nearest-hit traversal, from BVH.Hit: reject when the ray misses the node
    box, delegate at a leaf, otherwise query both children on the same
    interval and keep the record with the strictly smaller T, the right one
    on a tie. -/
def BVHTree.hitBVH : BVHTree α μ → Ray α → α → α → Option (HitRecord α μ)
  | .leaf o box, r, tMin, tMax =>
    if aabbHit box r tMin tMax then o.Hit r tMin tMax else none
  | .node l rt box, r, tMin, tMax =>
    if aabbHit box r tMin tMax then
      match l.hitBVH r tMin tMax, rt.hitBVH r tMin tMax with
      | some a, some b => if a.T < b.T then some a else some b
      | some a, none => some a
      | none, some b => some b
      | none, none => none
    else none

/-- Scan step of the linear search, threading the closest record and the
    running upper bound closestT, from ParallelRenderer.hitWorld. -/
def hwGo (r : Ray α) (tMin : α) :
    List (Hittable α μ) → Option (HitRecord α μ) × α → Option (HitRecord α μ) × α
  | [], s => s
  | o :: os, s =>
    hwGo r tMin os
      (match o.Hit r tMin s.2 with
       | some rec => (some rec, rec.T)
       | none => s)

/-- Naive linear scan over all primitives, from ParallelRenderer.hitWorld:
    closestT starts at tMax and is tightened to the T of each hit found. -/
def hitWorld (objects : List (Hittable α μ)) (r : Ray α) (tMin tMax : α) :
    Option (HitRecord α μ) :=
  (hwGo r tMin objects (none, tMax)).1

/-- Contract of a primitive behind the Hittable interface. Modelled from the
    spec, section 4.1: Hit returns the earliest valid root in the given
    interval, the hit lies inside the bounding box of the primitive, and
    restricting the interval keeps a root that still fits and drops one that
    does not. -/
structure LawfulHittable (o : Hittable α μ) : Prop where
  hit_in_box : ∀ r tMin tMax rec, o.Hit r tMin tMax = some rec →
    inBox o.BoundingBox (r.At rec.T)
  hit_t_mem : ∀ r tMin tMax rec, o.Hit r tMin tMax = some rec →
    tMin ≤ rec.T ∧ rec.T ≤ tMax
  hit_tighten : ∀ r tMin tMax tM rec, tM ≤ tMax → o.Hit r tMin tMax = some rec →
    rec.T ≤ tM → o.Hit r tMin tM = some rec
  hit_none_tighten : ∀ r tMin tMax tM, tM ≤ tMax → o.Hit r tMin tMax = none →
    o.Hit r tMin tM = none
  hit_far_tighten : ∀ r tMin tMax tM rec, tM ≤ tMax → o.Hit r tMin tMax = some rec →
    tM < rec.T → o.Hit r tMin tM = none

/-- Fixed tile edge from createRenderTasks. -/
def tileSize : ℕ := 32

/-- A unit of work for one worker, from type RenderTask: the half-open pixel
    rectangle of one tile plus the image size. -/
structure RenderTask where
  startX : ℕ
  startY : ℕ
  endX : ℕ
  endY : ℕ
  width : ℕ
  height : ℕ

/-- Tile enumeration, from ParallelRenderer.createRenderTasks: the image is
    cut into 32 by 32 tiles, the last tile of a row or column clipped to the
    image edge. -/
def createRenderTasks (width height : ℕ) : List RenderTask :=
  let numTilesX := (width + tileSize - 1) / tileSize
  let numTilesY := (height + tileSize - 1) / tileSize
  (List.range numTilesY).flatMap (fun y =>
    (List.range numTilesX).map (fun x =>
      { startX := x * tileSize
        startY := y * tileSize
        endX := min (x * tileSize + tileSize) width
        endY := min (y * tileSize + tileSize) height
        width := width
        height := height }))

/-- Membership of a pixel in the rectangle of a task. -/
def containsPix (t : RenderTask) (px py : ℕ) : Prop :=
  t.startX ≤ px ∧ px < t.endX ∧ t.startY ≤ py ∧ py < t.endY

instance (t : RenderTask) (px py : ℕ) : Decidable (containsPix t px py) := by
  unfold containsPix
  infer_instance

/-- Indirect (reflection) weight applied to the attenuated recursive
    radiance, as the chain of metallic thresholds in
    ParallelRenderer.traceRay assigns it; the final branch adds the
    attenuated reflection unweighted, hence weight one. -/
def reflectionWeight (metallic : α) : α :=
  if 0.95 < metallic then 0.85
  else if 0.9 < metallic then 0.8
  else if 0.8 < metallic then 0.75
  else if 0.7 < metallic then 0.7
  else if 0.5 < metallic then 0.6
  else if 0.2 < metallic then 0.4
  else 1

/-- Direct-lighting weight of the same chain in ParallelRenderer.traceRay;
    the final branch adds the direct term unweighted, hence weight one. -/
def directWeight (metallic : α) : α :=
  if 0.95 < metallic then 0.15
  else if 0.9 < metallic then 0.2
  else if 0.8 < metallic then 0.25
  else if 0.7 < metallic then 0.3
  else if 0.5 < metallic then 0.4
  else if 0.2 < metallic then 0.6
  else 1

/-- Ambient strength chain at the top of calculateDirectLighting. -/
def ambientStrength (metallic : α) : α :=
  if 0.9 < metallic then 0.05
  else if 0.7 < metallic then 0.07
  else if 0.5 < metallic then 0.08
  else 0.1

/-- Diffuse strength chain inside the light loop of calculateDirectLighting. -/
def diffuseStrength (metallic : α) : α :=
  if 0.95 < metallic then 0.05
  else if 0.9 < metallic then 0.08
  else if 0.8 < metallic then 0.12
  else if 0.7 < metallic then 0.15
  else if 0.5 < metallic then 0.2
  else 0.25

/-- Specular exponent chain inside the light loop of
    calculateDirectLighting; the source passes it to math.Pow as a whole
    number. -/
def specularPower (metallic : α) : ℕ :=
  if 0.9 < metallic then 64
  else if 0.8 < metallic then 48
  else 32

/-- Euclidean length, from Vec3.Length; the call to math.Sqrt is modelled by
    the real square root. -/
noncomputable def Vec3.Length (v : Vec3 ℝ) : ℝ :=
  Real.sqrt (v.X * v.X + v.Y * v.Y + v.Z * v.Z)

/-- Fast square root, from FastSqrt, whose body is just math.Sqrt. -/
noncomputable def FastSqrt (x : ℝ) : ℝ := Real.sqrt x

/-- Length via FastSqrt, from Vec3.FastLength. -/
noncomputable def Vec3.FastLength (v : Vec3 ℝ) : ℝ :=
  FastSqrt (v.X * v.X + v.Y * v.Y + v.Z * v.Z)

/-- Unit vector with a zero guard, from Vec3.Normalize: the zero vector is
    returned unchanged instead of dividing by a zero length. -/
noncomputable def Vec3.Normalize (v : Vec3 ℝ) : Vec3 ℝ :=
  let length := v.Length
  if length = 0 then ⟨0, 0, 0⟩ else v.DivScalar length

/-- Unit vector via FastLength, from Vec3.FastNormalize, with the same zero
    guard. -/
noncomputable def Vec3.FastNormalize (v : Vec3 ℝ) : Vec3 ℝ :=
  let length := v.FastLength
  if length = 0 then ⟨0, 0, 0⟩ else v.DivScalar length

/-- Material capability consumed by the integrator, from the Material
    interface of the material package. Scatter receives the hit record with
    its Material field erased, since the concrete materials never read that
    field; a scatter result of none is the continues equal false case. -/
structure Material where
  Scatter : Ray ℝ → HitRecord ℝ Unit → Option (Ray ℝ × Vec3 ℝ)
  Emitted : Vec3 ℝ
  GetAlbedo : Vec3 ℝ
  GetRoughness : ℝ
  GetMetallic : ℝ
  GetSpecular : ℝ

/-- Record with the material reference erased, as passed to Scatter. -/
def HitRecord.forget (h : HitRecord ℝ RayTrace.Material) : HitRecord ℝ Unit :=
  ⟨h.T, h.Point, h.Normal, h.FrontFace, ()⟩

/-- Scene primitive as the renderer sees it, from the Hittable interface of
    the scene package, whose only method is Hit. The upper interval end is a
    WithTop value because the renderer passes math.Inf(1) for the primary
    ray query. -/
structure HittableR where
  Hit : Ray ℝ → ℝ → WithTop ℝ → Option (HitRecord ℝ Material)

/-- Point light of the scene, from type Light of the scene package. -/
structure Light where
  Position : Vec3 ℝ
  Color : Vec3 ℝ
  Intensity : ℝ

/-- Camera parameters, from type Camera of the scene package. -/
structure Camera where
  Position : Vec3 ℝ
  LookAt : Vec3 ℝ
  Up : Vec3 ℝ
  FOV : ℝ
  Aspect : ℝ

/-- Renderer configuration, from type ParallelRenderer. -/
structure ParallelRenderer where
  numWorkers : ℕ
  maxDepth : ℕ
  samples : ℕ
  antiAliasing : Bool
  recursiveReflections : Bool
  softShadows : Bool
  depthOfField : Bool

/-- Default configuration, from NewParallelRenderer. -/
def NewParallelRenderer (numWorkers : ℕ) : ParallelRenderer :=
  ⟨numWorkers, 50, 100, true, true, true, false⟩

/-- Scan step of the renderer linear search, from
    ParallelRenderer.hitWorld, threading closestT as a WithTop value. -/
def hwGoR (r : Ray ℝ) (tMin : ℝ) :
    List HittableR → Option (HitRecord ℝ Material) × WithTop ℝ →
      Option (HitRecord ℝ Material) × WithTop ℝ
  | [], s => s
  | o :: os, s =>
    hwGoR r tMin os
      (match o.Hit r tMin s.2 with
       | some rec => (some rec, (rec.T : WithTop ℝ))
       | none => s)

/-- Linear scan of the renderer over all scene primitives, from
    ParallelRenderer.hitWorld. -/
def hitWorldR (objects : List HittableR) (r : Ray ℝ) (tMin : ℝ)
    (tMax : WithTop ℝ) : Option (HitRecord ℝ Material) :=
  (hwGoR r tMin objects (none, tMax)).1

/-- Background radiance, from ParallelRenderer.skyColor: a constant,
    independent of the ray. -/
def skyColor (_ray : Ray ℝ) : Vec3 ℝ := ⟨0.1, 0.1, 0.1⟩

/-- Shadow factor of one light, from ParallelRenderer.calculateSmartShadow:
    zero when the hard shadow ray is blocked before the light, otherwise an
    average over sixteen perturbed shadow rays when soft shadows are on, one
    when they are off. The stream of unit-sphere samples the source draws
    from the shared generator is modelled by the explicit sequence rng. -/
noncomputable def calculateSmartShadow (cfg : ParallelRenderer) (rng : ℕ → Vec3 ℝ)
    (hit : HitRecord ℝ Material) (light : Light) (hittables : List HittableR) : ℝ :=
  let lightDir := (light.Position.Sub hit.Point).Normalize
  let lightDistance := (light.Position.Sub hit.Point).Length
  let shadowRay : Ray ℝ := ⟨hit.Point, lightDir⟩
  if (hitWorldR hittables shadowRay 0.001 (lightDistance : ℝ)).isSome then 0
  else if cfg.softShadows then
    let shadowSamples : ℕ := 16
    let shadowSum := (List.range shadowSamples).foldl
      (fun acc i =>
        let softLightDir := (lightDir.Add ((rng i).MulScalar 0.1)).Normalize
        let softShadowRay : Ray ℝ := ⟨hit.Point, softLightDir⟩
        if (hitWorldR hittables softShadowRay 0.001 (lightDistance : ℝ)).isSome
        then acc
        else acc + 1) 0
    shadowSum / (shadowSamples : ℝ)
  else 1

/-- Contribution of a single light inside the loop of
    ParallelRenderer.calculateDirectLighting: nothing for a light closer
    than one thousandth, nothing when the shadow factor is zero, otherwise a
    Lambertian diffuse term and, for metallic above one half, a Blinn-Phong
    specular term. -/
noncomputable def lightContribution (cfg : ParallelRenderer) (rng : ℕ → Vec3 ℝ)
    (hit : HitRecord ℝ Material) (light : Light) (hittables : List HittableR) : Vec3 ℝ :=
  let albedo := hit.Material.GetAlbedo
  let metallic := hit.Material.GetMetallic
  let lightDir := (light.Position.Sub hit.Point).Normalize
  let lightDistance := (light.Position.Sub hit.Point).Length
  if lightDistance < 0.001 then vzero
  else
    let shadowFactor := calculateSmartShadow cfg rng hit light hittables
    if 0 < shadowFactor then
      let cosTheta := max 0 (hit.Normal.Dot lightDir)
      let intensity := cosTheta * light.Intensity / (lightDistance * lightDistance)
      let diffuse := albedo.MulScalar (diffuseStrength metallic * intensity * shadowFactor)
      if 1 / 2 < metallic then
        let viewDir := (hit.Point.MulScalar (-1)).Normalize
        let halfDir := (lightDir.Add viewDir).Normalize
        let specularIntensity :=
          (max 0 (hit.Normal.Dot halfDir)) ^ specularPower metallic
        let specular := light.Color.MulScalar
          (specularIntensity * intensity * shadowFactor * metallic * 3)
        diffuse.Add specular
      else diffuse
    else vzero

/-- Direct lighting at a hit, from
    ParallelRenderer.calculateDirectLighting: an ambient term plus the sum
    of the per-light contributions. -/
noncomputable def calculateDirectLighting (cfg : ParallelRenderer) (rng : ℕ → Vec3 ℝ)
    (hit : HitRecord ℝ Material) (hittables : List HittableR)
    (lights : List Light) : Vec3 ℝ :=
  let metallic := hit.Material.GetMetallic
  let a := ambientStrength metallic
  let ambientLight : Vec3 ℝ := ⟨a, a, a⟩
  lights.foldl (fun acc light => acc.Add (lightContribution cfg rng hit light hittables))
    (vzero.Add ambientLight)

/-- Recursive radiance integrator, from ParallelRenderer.traceRay: black at
    or beyond maxDepth, black on a miss, otherwise emission plus weighted
    direct lighting plus weighted attenuated recursive reflection, the
    metallic threshold chain of the source factored through directWeight and
    reflectionWeight. -/
noncomputable def traceRay (cfg : ParallelRenderer) (rng : ℕ → Vec3 ℝ)
    (hittables : List HittableR) (lights : List Light) :
    Ray ℝ → ℕ → Vec3 ℝ
  | ray, depth =>
    if _h : cfg.maxDepth ≤ depth then vzero
    else
      match hitWorldR hittables ray 0.001 ⊤ with
      | none => ⟨0, 0, 0⟩
      | some hitRecord =>
        let mat := hitRecord.Material
        let emitted := mat.Emitted
        let directLighting := calculateDirectLighting cfg rng hitRecord hittables lights
        match mat.Scatter ray hitRecord.forget with
        | none => emitted.Add directLighting
        | some (scattered, attenuation) =>
          let reflectedColor :=
            if cfg.recursiveReflections
            then traceRay cfg rng hittables lights scattered (depth + 1)
            else vzero
          let metallic := mat.GetMetallic
          emitted.Add ((directLighting.MulScalar (directWeight metallic)).Add
            ((attenuation.Mul reflectedColor).MulScalar (reflectionWeight metallic)))
termination_by _ depth => cfg.maxDepth - depth
decreasing_by
  omega

/-- View ray for normalized image coordinates, from
    ParallelRenderer.getRay. -/
noncomputable def getRay (u v : ℝ) (camera : Camera) : Ray ℝ :=
  let viewportHeight : ℝ := 2
  let viewportWidth : ℝ := viewportHeight * camera.Aspect
  let focalLength : ℝ := 1
  let origin := camera.Position
  let horizontal : Vec3 ℝ := ⟨viewportWidth, 0, 0⟩
  let vertical : Vec3 ℝ := ⟨0, viewportHeight, 0⟩
  let lowerLeftCorner :=
    ((origin.Sub (horizontal.DivScalar 2)).Sub (vertical.DivScalar 2)).Sub
      ⟨0, 0, focalLength⟩
  let direction :=
    ((lowerLeftCorner.Add (horizontal.MulScalar u)).Add (vertical.MulScalar v)).Sub origin
  ⟨origin, direction⟩

/-- Average of the per-sample radiances of one pixel, from
    ParallelRenderer.tracePixel; the two jitter draws of each sample from
    the shared generator are modelled by the explicit sequence jit. -/
noncomputable def tracePixel (cfg : ParallelRenderer) (jit : ℕ → ℝ) (rng : ℕ → Vec3 ℝ)
    (camera : Camera) (hittables : List HittableR) (lights : List Light)
    (x y width height : ℕ) : Vec3 ℝ :=
  let total := (List.range cfg.samples).foldl
    (fun acc s =>
      let u := ((x : ℝ) + jit (2 * s)) / (width : ℝ)
      let v := ((y : ℝ) + jit (2 * s + 1)) / (height : ℝ)
      let ray := getRay u v camera
      acc.Add (traceRay cfg rng hittables lights ray 0)) vzero
  total.DivScalar (cfg.samples : ℝ)

/-- Pixel of a tile result, from type Pixel of the renderer package. -/
structure Pixel where
  x : ℕ
  y : ℕ
  color : Vec3 ℝ

/-- Consecutive naturals from a to b exclusive, the index set of a Go for
    loop. -/
def natRange (a b : ℕ) : List ℕ := List.range' a (b - a)

/-- Pixels of one tile, from ParallelRenderer.renderTile: one traced pixel
    for every coordinate of the task rectangle, rows outer. -/
noncomputable def renderTile (cfg : ParallelRenderer) (jit : ℕ → ℝ) (rng : ℕ → Vec3 ℝ)
    (camera : Camera) (hittables : List HittableR) (lights : List Light)
    (task : RenderTask) : List Pixel :=
  (natRange task.startY task.endY).flatMap (fun y =>
    (natRange task.startX task.endX).map (fun x =>
      ⟨x, y, tracePixel cfg jit rng camera hittables lights x y task.width task.height⟩))

/-- Deterministic model of the render pipeline of ParallelRenderer.Render:
    the tiles of createRenderTasks are each rendered once and their pixel
    lists aggregated; this is the multiset of pixel writes the aggregation
    loop performs. -/
noncomputable def renderPixels (cfg : ParallelRenderer) (jit : ℕ → ℝ) (rng : ℕ → Vec3 ℝ)
    (camera : Camera) (hittables : List HittableR) (lights : List Light)
    (width height : ℕ) : List Pixel :=
  (createRenderTasks width height).flatMap
    (renderTile cfg jit rng camera hittables lights)

/-- Shadow-ray direction toward a light, naming the lightDir subterm of
    calculateDirectLighting and calculateSmartShadow. -/
noncomputable def lightDirOf (hit : HitRecord ℝ RayTrace.Material) (light : Light) : Vec3 ℝ :=
  (light.Position.Sub hit.Point).Normalize

/-- Distance to a light, naming the lightDistance subterm of
    calculateDirectLighting and calculateSmartShadow. -/
noncomputable def lightDistanceOf (hit : HitRecord ℝ RayTrace.Material) (light : Light) : ℝ :=
  (light.Position.Sub hit.Point).Length

/-- Specular factor of the per-light contribution with the common
    intensity-times-shadow factor divided out, naming the Blinn-Phong
    subterm of calculateDirectLighting. -/
noncomputable def specularTerm (hit : HitRecord ℝ RayTrace.Material) (light : Light) : Vec3 ℝ :=
  if 1 / 2 < hit.Material.GetMetallic then
    light.Color.MulScalar
      ((max 0 (hit.Normal.Dot
          (((lightDirOf hit light).Add ((hit.Point.MulScalar (-1)).Normalize)).Normalize))) ^
          specularPower hit.Material.GetMetallic *
        hit.Material.GetMetallic * 3)
  else vzero

/-- Constant zero sample stream for concrete runs. -/
def rng0 : ℕ → Vec3 ℝ := fun _ => ⟨0, 0, 0⟩

/-- Constant zero jitter stream for concrete runs. -/
def jit0 : ℕ → ℝ := fun _ => 0

/-- Concrete ray along the z axis. -/
def rayZ : Ray ℝ := ⟨⟨0, 0, 0⟩, ⟨0, 0, 1⟩⟩

/-- Rational primitive that never reports a hit, with a degenerate box. -/
def missP : Hittable ℚ ℕ := ⟨fun _ _ _ => none, ⟨⟨0, 0, 0⟩, ⟨0, 0, 0⟩⟩⟩

/-- Second never-hit rational primitive with a distinct box. -/
def missQ : Hittable ℚ ℕ := ⟨fun _ _ _ => none, ⟨⟨2, 2, 2⟩, ⟨3, 3, 3⟩⟩⟩

/-- Concrete rational ray along the x axis. -/
def rayXQ : Ray ℚ := ⟨⟨0, 0, 0⟩, ⟨1, 0, 0⟩⟩

/-- Primitive whose box sits at ten to eleven on the x axis; its centroid is
    the larger of the pair along that axis. -/
def bvhObjA : Hittable ℚ ℕ := ⟨fun _ _ _ => none, ⟨⟨10, 0, 0⟩, ⟨11, 1, 1⟩⟩⟩

/-- Primitive whose box sits at zero to one on the x axis; its centroid is
    the smaller of the pair along that axis. -/
def bvhObjB : Hittable ℚ ℕ := ⟨fun _ _ _ => none, ⟨⟨0, 0, 0⟩, ⟨1, 1, 1⟩⟩⟩

/-- Concrete diffuse material: never scatters, no emission, white albedo,
    metallic zero. -/
def matDiffuse : Material := ⟨fun _ _ => none, ⟨0, 0, 0⟩, ⟨1, 1, 1⟩, 0, 0, 1⟩

/-- Concrete hit at the origin whose normal points along z. -/
def hitGrazing : HitRecord ℝ Material := ⟨1, ⟨0, 0, 0⟩, ⟨0, 0, 1⟩, true, matDiffuse⟩

/-- Concrete hit at the origin whose normal points along x. -/
def hitFacing : HitRecord ℝ Material := ⟨1, ⟨0, 0, 0⟩, ⟨1, 0, 0⟩, true, matDiffuse⟩

/-- Concrete point light one unit along the x axis. -/
def lightX : Light := ⟨⟨1, 0, 0⟩, ⟨1, 1, 1⟩, 1⟩

/-- Primitive that reports a fixed hit at parameter one half whenever that
    parameter lies in the queried interval. -/
noncomputable def blockerP : HittableR :=
  ⟨fun r tMin tMax =>
    if tMin ≤ 1 / 2 ∧ (((1 : ℝ) / 2 : ℝ) : WithTop ℝ) ≤ tMax then
      some ⟨1 / 2, r.At (1 / 2), ⟨1, 0, 0⟩, true, matDiffuse⟩
    else none⟩

/-- C2: the integrator returns zero radiance, without any recursion, as soon
    as the depth reaches maxDepth, for every ray, scene, light list and
    sample stream; the embedding of traceRay is well founded on maxDepth
    minus depth, the termination bound the claim states. -/
theorem traceRay_depth_termination (cfg : ParallelRenderer) (rng : ℕ → Vec3 ℝ)
    (hittables : List HittableR) (lights : List Light) (ray : Ray ℝ) (depth : ℕ)
    (h : cfg.maxDepth ≤ depth) :
    traceRay cfg rng hittables lights ray depth = vzero := by
  unfold traceRay
  simp [h]

theorem traceRay_depth_termination_witness :
    (NewParallelRenderer 4).maxDepth ≤ 50 ∧
      traceRay (NewParallelRenderer 4) rng0 [] [] rayZ 50 = vzero :=
  ⟨by norm_num [NewParallelRenderer],
   traceRay_depth_termination _ _ _ _ _ _ (by norm_num [NewParallelRenderer])⟩

/-- C3 counterexample: a ray that hits nothing is assigned the constant
    black radiance, which is not the value of the skyColor background
    function, so the integrator does not return the sky radiance on a
    miss. -/
theorem traceRay_miss_not_sky :
    traceRay (NewParallelRenderer 4) rng0 [] [] rayZ 0 = ⟨0, 0, 0⟩ ∧
      traceRay (NewParallelRenderer 4) rng0 [] [] rayZ 0 ≠ skyColor rayZ := by
  have hb : traceRay (NewParallelRenderer 4) rng0 [] [] rayZ 0 = ⟨0, 0, 0⟩ := by
    unfold traceRay
    simp [NewParallelRenderer, hitWorldR, hwGoR]
  refine ⟨hb, ?_⟩
  rw [hb]
  simp only [skyColor, ne_eq, Vec3.mk.injEq, not_and]
  intro h0
  norm_num at h0

/-- C3 amended: on a miss below the depth bound the integrator returns the
    fixed constant black, not a function of the ray direction; the unused
    skyColor helper is itself the constant one tenth in each channel. -/
theorem traceRay_miss_black (cfg : ParallelRenderer) (rng : ℕ → Vec3 ℝ)
    (hittables : List HittableR) (lights : List Light) (ray : Ray ℝ) (depth : ℕ)
    (hd : depth < cfg.maxDepth) (hm : hitWorldR hittables ray 0.001 ⊤ = none) :
    traceRay cfg rng hittables lights ray depth = ⟨0, 0, 0⟩ ∧
      ∀ r : Ray ℝ, skyColor r = ⟨0.1, 0.1, 0.1⟩ := by
  have h' : ¬ cfg.maxDepth ≤ depth := by omega
  refine ⟨?_, fun r => rfl⟩
  unfold traceRay
  simp [h', hm]

theorem traceRay_miss_black_witness :
    0 < (NewParallelRenderer 4).maxDepth ∧
      hitWorldR [] rayZ 0.001 ⊤ = none ∧
      (traceRay (NewParallelRenderer 4) rng0 [] [] rayZ 0 = ⟨0, 0, 0⟩ ∧
        ∀ r : Ray ℝ, skyColor r = ⟨0.1, 0.1, 0.1⟩) :=
  ⟨by norm_num [NewParallelRenderer], rfl,
    traceRay_miss_black _ _ _ _ _ _ (by norm_num [NewParallelRenderer]) rfl⟩

/-- C10: Normalize and FastNormalize are total: the zero vector maps to the
    zero vector, and a nonzero vector has nonzero length, so the division
    branch only ever divides by a nonzero length and returns the vector
    divided by its length. -/
theorem normalize_total :
    (Vec3.Normalize ⟨0, 0, 0⟩ = ⟨0, 0, 0⟩) ∧
      ∀ v : Vec3 ℝ, v ≠ ⟨0, 0, 0⟩ →
        v.Length ≠ 0 ∧ v.Normalize = v.DivScalar v.Length ∧
          v.FastNormalize = v.DivScalar v.Length := by
  constructor
  · simp [Vec3.Normalize, Vec3.Length]
  · intro v hv
    obtain ⟨x, y, z⟩ := v
    have hpos : 0 < x * x + y * y + z * z := by
      rcases lt_or_eq_of_le (add_nonneg (add_nonneg (mul_self_nonneg x) (mul_self_nonneg y))
        (mul_self_nonneg z)) with h | h
      · exact h
      · exfalso
        apply hv
        have hx : x * x = 0 :=
          le_antisymm (by nlinarith [mul_self_nonneg y, mul_self_nonneg z])
            (mul_self_nonneg x)
        have hy : y * y = 0 :=
          le_antisymm (by nlinarith [mul_self_nonneg x, mul_self_nonneg z])
            (mul_self_nonneg y)
        have hz : z * z = 0 :=
          le_antisymm (by nlinarith [mul_self_nonneg x, mul_self_nonneg y])
            (mul_self_nonneg z)
        simp [Vec3.mk.injEq, mul_self_eq_zero.mp hx, mul_self_eq_zero.mp hy,
          mul_self_eq_zero.mp hz]
    have hlen : Vec3.Length ⟨x, y, z⟩ ≠ 0 := by
      simp only [Vec3.Length]
      exact ne_of_gt (Real.sqrt_pos.mpr hpos)
    refine ⟨hlen, ?_, ?_⟩
    · simp [Vec3.Normalize, hlen]
    · have hfl : Vec3.FastLength ⟨x, y, z⟩ = Vec3.Length ⟨x, y, z⟩ := rfl
      simp [Vec3.FastNormalize, hfl, hlen]

theorem normalize_total_witness :
    ((⟨3, 4, 0⟩ : Vec3 ℝ) ≠ ⟨0, 0, 0⟩) ∧
      (Vec3.Length ⟨3, 4, 0⟩ ≠ 0 ∧
        Vec3.Normalize ⟨3, 4, 0⟩ = Vec3.DivScalar ⟨3, 4, 0⟩ (Vec3.Length ⟨3, 4, 0⟩) ∧
        Vec3.FastNormalize ⟨3, 4, 0⟩ = Vec3.DivScalar ⟨3, 4, 0⟩ (Vec3.Length ⟨3, 4, 0⟩)) := by
  have hne : (⟨3, 4, 0⟩ : Vec3 ℝ) ≠ ⟨0, 0, 0⟩ := by
    simp only [ne_eq, Vec3.mk.injEq, not_and]
    intro h0
    norm_num at h0
  exact ⟨hne, normalize_total.2 _ hne⟩

/-- C7 counterexample: the indirect weight is one at metallic zero, two
    fifths at metallic three tenths and seventeen twentieths at metallic
    one, all inside the unit interval, so it is monotone in neither
    direction over that interval. -/
theorem reflectionWeight_not_monotone :
    (0 : ℚ) ≤ 3 / 10 ∧ (3 / 10 : ℚ) ≤ 1 ∧
      reflectionWeight (3 / 10 : ℚ) < reflectionWeight (0 : ℚ) ∧
      reflectionWeight (3 / 10 : ℚ) < reflectionWeight (1 : ℚ) := by
  norm_num [reflectionWeight]

/-- C7 amended: the weight split is the deterministic function
    reflectionWeight of the metallic parameter alone; it is monotone
    nondecreasing on metallic above one fifth, equals seventeen twentieths
    for a pure reflector, and below one fifth both weights are one, the
    no-split diffuse branch that breaks monotonicity over the whole unit
    interval. -/
theorem reflectionWeight_piecewise_monotone (a b : ℚ) (ha : 1 / 5 < a) (hab : a ≤ b) :
    reflectionWeight a ≤ reflectionWeight b ∧
      reflectionWeight (1 : ℚ) = 17 / 20 ∧
      ∀ m : ℚ, m ≤ 1 / 5 → reflectionWeight m = 1 ∧ directWeight m = 1 := by
  refine ⟨?_, by norm_num [reflectionWeight], ?_⟩
  · unfold reflectionWeight
    split_ifs <;> linarith
  · intro m hm
    constructor
    · unfold reflectionWeight
      split_ifs <;> first | rfl | linarith
    · unfold directWeight
      split_ifs <;> first | rfl | linarith

theorem reflectionWeight_piecewise_monotone_witness :
    (1 / 5 : ℚ) < 3 / 10 ∧ (3 / 10 : ℚ) ≤ 1 ∧
      (reflectionWeight (3 / 10 : ℚ) ≤ reflectionWeight (1 : ℚ) ∧
        reflectionWeight (1 : ℚ) = 17 / 20 ∧
        ∀ m : ℚ, m ≤ 1 / 5 → reflectionWeight m = 1 ∧ directWeight m = 1) :=
  ⟨by norm_num, by norm_num,
    reflectionWeight_piecewise_monotone (3 / 10) 1 (by norm_num) (by norm_num)⟩

/-- C4: the build discards the longest axis and splits at the raw index
    midpoint: on a two-element list whose first element has the larger
    centroid along the longest axis, the left child still holds the first
    element, so no centroid sorting along that axis happens. -/
theorem newBVH_ignores_longest_axis :
    NewBVH [bvhObjA, bvhObjB] =
      some (BVHTree.node (BVHTree.leaf bvhObjA bvhObjA.BoundingBox)
        (BVHTree.leaf bvhObjB bvhObjB.BoundingBox)
        (surroundingBox bvhObjA.BoundingBox bvhObjB.BoundingBox)) ∧
      longestAxis (surroundingBox bvhObjA.BoundingBox bvhObjB.BoundingBox) = 0 ∧
      (bvhObjB.BoundingBox.Min.X + bvhObjB.BoundingBox.Max.X) / 2 <
        (bvhObjA.BoundingBox.Min.X + bvhObjA.BoundingBox.Max.X) / 2 := by
  refine ⟨?_, ?_, by norm_num [bvhObjA, bvhObjB]⟩
  · simp [NewBVH]
  · norm_num [longestAxis, surroundingBox, FastMin, FastMax, Vec3.Sub, bvhObjA, bvhObjB]

/-- C9: no configuration validation exists: with zero width and height the
    task list is empty and the model of Render produces an empty pixel list
    and returns normally, and with an empty primitive list the integrator
    quietly produces black for every ray, also under a zero worker count
    configuration; no error is reported in any of these cases. -/
theorem render_accepts_degenerate_config :
    createRenderTasks 0 0 = [] ∧
      (∀ cfg jit rng cam lights, renderPixels cfg jit rng cam [] lights 0 0 = []) ∧
      (∀ rng lights ray, traceRay (NewParallelRenderer 0) rng [] lights ray 0 = ⟨0, 0, 0⟩) := by
  refine ⟨rfl, fun cfg jit rng cam lights => ?_, fun rng lights ray => ?_⟩
  · simp [renderPixels, createRenderTasks, tileSize]
  · unfold traceRay
    simp [NewParallelRenderer, hitWorldR, hwGoR]

theorem countP_flatMap {β γ : Type} (l : List β) (f : β → List γ) (p : γ → Bool) :
    (l.flatMap f).countP p = (l.map (fun b => (f b).countP p)).sum := by
  induction l with
  | nil => rfl
  | cons b l ih => simp [List.countP_append, ih]

theorem countP_range_single (n c : ℕ) (p : ℕ → Bool) (h : ∀ x, x ≠ c → p x = false) :
    (List.range n).countP p = if c < n then (if p c then 1 else 0) else 0 := by
  induction n with
  | zero => simp
  | succ n ih =>
    rw [List.range_succ, List.countP_append, ih]
    by_cases hc : c = n
    · subst hc
      rw [if_neg (show ¬ c < c by omega), if_pos (show c < c + 1 by omega)]
      simp [List.countP_cons]
    · rw [List.countP_cons, List.countP_nil, h n (fun he => hc he.symm)]
      by_cases hlt : c < n
      · rw [if_pos hlt, if_pos (show c < n + 1 by omega)]
        simp
      · rw [if_neg hlt, if_neg (show ¬ c < n + 1 by omega)]
        simp

theorem countP_range'_single (s n c : ℕ) (p : ℕ → Bool) (h : ∀ x, x ≠ c → p x = false) :
    (List.range' s n).countP p = if s ≤ c ∧ c < s + n then (if p c then 1 else 0) else 0 := by
  induction n generalizing s with
  | zero =>
    rw [if_neg (show ¬ (s ≤ c ∧ c < s + 0) by omega)]
    rfl
  | succ n ih =>
    rw [List.range'_succ, List.countP_cons, ih (s + 1)]
    by_cases hs : s = c
    · subst hs
      rw [if_neg (show ¬ (s + 1 ≤ s ∧ s < s + 1 + n) by omega),
        if_pos (show s ≤ s ∧ s < s + (n + 1) by omega)]
      simp
    · rw [h s hs]
      by_cases hc : s + 1 ≤ c ∧ c < s + 1 + n
      · rw [if_pos hc, if_pos (show s ≤ c ∧ c < s + (n + 1) by omega)]
        simp
      · rw [if_neg hc, if_neg (show ¬ (s ≤ c ∧ c < s + (n + 1)) by omega)]
        simp

theorem countP_map_range'_single {β : Type} (s n c : ℕ) (f : ℕ → β) (p : β → Bool)
    (h : ∀ x, x ≠ c → p (f x) = false) :
    ((List.range' s n).map f).countP p =
      if s ≤ c ∧ c < s + n then (if p (f c) then 1 else 0) else 0 := by
  rw [List.countP_map,
    countP_range'_single s n c (p ∘ f) (fun x hx => by simpa using h x hx)]
  rfl

theorem sum_map_range_single (n c : ℕ) (f : ℕ → ℕ) (h : ∀ x, x ≠ c → f x = 0) :
    ((List.range n).map f).sum = if c < n then f c else 0 := by
  induction n with
  | zero => simp
  | succ n ih =>
    rw [List.range_succ, List.map_append, List.sum_append, ih]
    simp only [List.map_cons, List.map_nil, List.sum_cons, List.sum_nil]
    by_cases hc : c = n
    · subst hc
      rw [if_neg (show ¬ c < c by omega), if_pos (show c < c + 1 by omega)]
      simp
    · rw [h n (fun he => hc he.symm)]
      by_cases hlt : c < n
      · rw [if_pos hlt, if_pos (show c < n + 1 by omega)]
        simp
      · rw [if_neg hlt, if_neg (show ¬ c < n + 1 by omega)]
        simp

theorem sum_map_range'_single (s n c : ℕ) (f : ℕ → ℕ) (h : ∀ x, x ≠ c → f x = 0) :
    ((List.range' s n).map f).sum = if s ≤ c ∧ c < s + n then f c else 0 := by
  induction n generalizing s with
  | zero =>
    rw [if_neg (show ¬ (s ≤ c ∧ c < s + 0) by omega)]
    rfl
  | succ n ih =>
    rw [List.range'_succ, List.map_cons, List.sum_cons, ih (s + 1)]
    by_cases hs : s = c
    · subst hs
      rw [if_neg (show ¬ (s + 1 ≤ s ∧ s < s + 1 + n) by omega),
        if_pos (show s ≤ s ∧ s < s + (n + 1) by omega)]
      simp
    · rw [h s hs]
      by_cases hc : s + 1 ≤ c ∧ c < s + 1 + n
      · rw [if_pos hc, if_pos (show s ≤ c ∧ c < s + (n + 1) by omega)]
        simp
      · rw [if_neg hc, if_neg (show ¬ (s ≤ c ∧ c < s + (n + 1)) by omega)]

theorem sum_map_ite_eq_countP {β : Type} (l : List β) (p : β → Prop) [DecidablePred p] :
    (l.map (fun b => if p b then 1 else 0)).sum = l.countP (fun b => decide (p b)) := by
  induction l with
  | nil => rfl
  | cons b l ih =>
    rw [List.map_cons, List.sum_cons, List.countP_cons, ih]
    by_cases hb : p b
    · simp [hb]
      omega
    · simp [hb]

theorem countTasks_eq_one (w h px py : ℕ) (hx : px < w) (hy : py < h) :
    (createRenderTasks w h).countP (fun t => decide (containsPix t px py)) = 1 := by
  unfold createRenderTasks
  simp only [tileSize]
  rw [countP_flatMap]
  have key : ∀ y : ℕ,
      ((List.range ((w + 32 - 1) / 32)).map (fun x =>
        ({ startX := x * 32, startY := y * 32,
           endX := min (x * 32 + 32) w,
           endY := min (y * 32 + 32) h,
           width := w, height := h } : RenderTask))).countP
        (fun t => decide (containsPix t px py)) =
      if y * 32 ≤ py ∧ py < min (y * 32 + 32) h then 1 else 0 := by
    intro y
    rw [List.countP_map, countP_range_single _ (px / 32)]
    · rw [if_pos (by omega)]
      by_cases hrow : y * 32 ≤ py ∧ py < min (y * 32 + 32) h
      · rw [if_pos hrow]
        have hcp : containsPix
            { startX := px / 32 * 32, startY := y * 32,
              endX := min (px / 32 * 32 + 32) w,
              endY := min (y * 32 + 32) h,
              width := w, height := h } px py := by
          simp only [containsPix]
          omega
        simp [hcp]
      · rw [if_neg hrow]
        have hcp : ¬ containsPix
            { startX := px / 32 * 32, startY := y * 32,
              endX := min (px / 32 * 32 + 32) w,
              endY := min (y * 32 + 32) h,
              width := w, height := h } px py := by
          simp only [containsPix]
          omega
        simp [hcp]
    · intro x hxc
      simp only [Function.comp_apply, decide_eq_false_iff_not, containsPix]
      omega
  simp only [key]
  rw [sum_map_range_single _ (py / 32)]
  · rw [if_pos (by omega), if_pos (by omega)]
  · intro x hxc
    rw [if_neg (by omega)]

theorem renderTile_coord_count (cfg : ParallelRenderer) (jit : ℕ → ℝ) (rng : ℕ → Vec3 ℝ)
    (cam : Camera) (hittables : List HittableR) (lights : List Light)
    (t : RenderTask) (px py : ℕ) :
    (renderTile cfg jit rng cam hittables lights t).countP
      (fun pix => decide (pix.x = px ∧ pix.y = py)) =
    if t.startX ≤ px ∧ px < t.startX + (t.endX - t.startX) ∧
        t.startY ≤ py ∧ py < t.startY + (t.endY - t.startY) then 1 else 0 := by
  unfold renderTile natRange
  rw [countP_flatMap]
  have key : ∀ y : ℕ,
      ((List.range' t.startX (t.endX - t.startX)).map (fun x =>
        (⟨x, y, tracePixel cfg jit rng cam hittables lights x y t.width t.height⟩ : Pixel))).countP
        (fun pix => decide (pix.x = px ∧ pix.y = py)) =
      if (t.startX ≤ px ∧ px < t.startX + (t.endX - t.startX)) ∧ y = py then 1 else 0 := by
    intro y
    rw [countP_map_range'_single t.startX (t.endX - t.startX) px _ _
      (fun x hxc => by simp [hxc])]
    by_cases hyy : y = py
    · simp [hyy]
    · simp [hyy]
  simp only [key]
  rw [sum_map_range'_single t.startY (t.endY - t.startY) py _
    (fun y hyc => if_neg (fun hand => hyc hand.2))]
  by_cases hcol : t.startX ≤ px ∧ px < t.startX + (t.endX - t.startX)
  · by_cases hrow : t.startY ≤ py ∧ py < t.startY + (t.endY - t.startY)
    · rw [if_pos hrow, if_pos ⟨hcol, rfl⟩, if_pos ⟨hcol.1, hcol.2, hrow.1, hrow.2⟩]
    · rw [if_neg hrow, if_neg (fun hand => hrow ⟨hand.2.2.1, hand.2.2.2⟩)]
  · by_cases hrow : t.startY ≤ py ∧ py < t.startY + (t.endY - t.startY)
    · rw [if_pos hrow, if_neg (fun hand => hcol hand.1),
        if_neg (fun hand => hcol ⟨hand.1, hand.2.1⟩)]
    · rw [if_neg hrow, if_neg (fun hand => hrow ⟨hand.2.2.1, hand.2.2.2⟩)]

/-- C5: the enqueued tiles cover the image exactly: every image pixel lies
    in exactly one tile, no tile reaches outside the image, and the
    aggregated pixel list of the rendering model writes every image pixel
    exactly once, also when the image size is not a multiple of the tile
    edge. -/
theorem tile_coverage (w h px py : ℕ) (hx : px < w) (hy : py < h) :
    ((createRenderTasks w h).countP (fun t => decide (containsPix t px py)) = 1) ∧
      (∀ t ∈ createRenderTasks w h, t.endX ≤ w ∧ t.endY ≤ h) ∧
      (∀ cfg jit rng cam hittables lights,
        (renderPixels cfg jit rng cam hittables lights w h).countP
          (fun pix => decide (pix.x = px ∧ pix.y = py)) = 1) := by
  refine ⟨countTasks_eq_one w h px py hx hy, ?_, ?_⟩
  · intro t ht
    simp only [createRenderTasks, tileSize, List.mem_flatMap, List.mem_map,
      List.mem_range] at ht
    obtain ⟨y, _, x, _, rfl⟩ := ht
    exact ⟨min_le_right _ _, min_le_right _ _⟩
  · intro cfg jit rng cam hittables lights
    unfold renderPixels
    rw [countP_flatMap]
    have e2 : ∀ t ∈ createRenderTasks w h,
        (renderTile cfg jit rng cam hittables lights t).countP
          (fun pix => decide (pix.x = px ∧ pix.y = py)) =
        if containsPix t px py then 1 else 0 := by
      intro t ht
      rw [renderTile_coord_count]
      simp only [createRenderTasks, tileSize, List.mem_flatMap, List.mem_map,
        List.mem_range] at ht
      obtain ⟨y, hyr, x, hxr, rfl⟩ := ht
      have hiff : (x * 32 ≤ px ∧ px < x * 32 + (min (x * 32 + 32) w - x * 32) ∧
          y * 32 ≤ py ∧ py < y * 32 + (min (y * 32 + 32) h - y * 32)) ↔
          containsPix
            { startX := x * 32, startY := y * 32,
              endX := min (x * 32 + 32) w, endY := min (y * 32 + 32) h,
              width := w, height := h } px py := by
        simp only [containsPix]
        omega
      rw [if_congr hiff rfl rfl]
    rw [List.map_congr_left e2, sum_map_ite_eq_countP]
    exact countTasks_eq_one w h px py hx hy

theorem tile_coverage_witness :
    (2 : ℕ) < 3 ∧ (1 : ℕ) < 2 ∧
      (((createRenderTasks 3 2).countP (fun t => decide (containsPix t 2 1)) = 1) ∧
        (∀ t ∈ createRenderTasks 3 2, t.endX ≤ 3 ∧ t.endY ≤ 2) ∧
        (∀ cfg jit rng cam hittables lights,
          (renderPixels cfg jit rng cam hittables lights 3 2).countP
            (fun pix => decide (pix.x = 2 ∧ pix.y = 1)) = 1)) :=
  ⟨by norm_num, by norm_num, tile_coverage 3 2 2 1 (by norm_num) (by norm_num)⟩

theorem hitWorldR_nil (r : Ray ℝ) (tMin : ℝ) (tMax : WithTop ℝ) :
    hitWorldR [] r tMin tMax = none := rfl

theorem foldl_count_misses {β : Type} (l : List β) (a : ℝ) :
    l.foldl (fun acc _ => acc + 1) a = a + l.length := by
  induction l generalizing a with
  | nil => simp
  | cons b l ih =>
    rw [List.foldl_cons, ih, List.length_cons]
    push_cast
    ring

theorem calculateSmartShadow_nil (cfg : ParallelRenderer) (rng : ℕ → Vec3 ℝ)
    (hit : HitRecord ℝ RayTrace.Material) (light : Light) :
    calculateSmartShadow cfg rng hit light [] = 1 := by
  simp only [calculateSmartShadow, hitWorldR_nil, Option.isSome_none, Bool.false_eq_true,
    if_false]
  cases hsoft : cfg.softShadows
  · simp
  · simp only [if_true]
    rw [foldl_count_misses]
    norm_num

theorem diffuseStrength_pos (m : ℝ) : 0 < diffuseStrength m := by
  unfold diffuseStrength
  split_ifs <;> norm_num

theorem lightX_geometry :
    lightX.Position.Sub (⟨0, 0, 0⟩ : Vec3 ℝ) = ⟨1, 0, 0⟩ ∧
      Vec3.Length ⟨1, 0, 0⟩ = 1 ∧ Vec3.Normalize ⟨1, 0, 0⟩ = ⟨1, 0, 0⟩ := by
  have hsub : lightX.Position.Sub (⟨0, 0, 0⟩ : Vec3 ℝ) = ⟨1, 0, 0⟩ := by
    simp [lightX, Vec3.Sub]
  have hlen : Vec3.Length (⟨1, 0, 0⟩ : Vec3 ℝ) = 1 := by
    simp only [Vec3.Length]
    rw [show (1 * 1 + 0 * 0 + 0 * 0 : ℝ) = 1 by norm_num, Real.sqrt_one]
  refine ⟨hsub, hlen, ?_⟩
  simp only [Vec3.Normalize, hlen]
  norm_num [Vec3.DivScalar]

/-- C6 counterexample: a light that is not occluded at all, with shadow
    factor one, still contributes zero when it lies in the tangent plane of
    the surface, since the cosine factor is zero; so an unoccluded light
    does not always yield a positive contribution. -/
theorem light_unoccluded_zero_contribution :
    hitWorldR [] ⟨hitGrazing.Point, lightDirOf hitGrazing lightX⟩ 0.001
        ((lightDistanceOf hitGrazing lightX : ℝ) : WithTop ℝ) = none ∧
      0 < calculateSmartShadow (NewParallelRenderer 4) rng0 hitGrazing lightX [] ∧
      lightContribution (NewParallelRenderer 4) rng0 hitGrazing lightX [] = vzero := by
  refine ⟨rfl, ?_, ?_⟩
  · rw [calculateSmartShadow_nil]
    norm_num
  · have hpt : hitGrazing.Point = (⟨0, 0, 0⟩ : Vec3 ℝ) := rfl
    simp only [lightContribution, hpt, lightX_geometry.1, lightX_geometry.2.1,
      lightX_geometry.2.2]
    rw [if_neg (by norm_num)]
    rw [calculateSmartShadow_nil]
    rw [if_pos (by norm_num)]
    have hdot : hitGrazing.Normal.Dot ⟨1, 0, 0⟩ = 0 := by
      simp [hitGrazing, Vec3.Dot]
    rw [hdot]
    have hm : ¬ (1 / 2 : ℝ) < hitGrazing.Material.GetMetallic := by
      simp [hitGrazing, matDiffuse]
    rw [if_neg hm]
    simp [Vec3.MulScalar, vzero, hitGrazing, matDiffuse]

/-- C6 amended: a light whose hard shadow ray is blocked before the light
    contributes exactly zero; an unoccluded light with a nonzero visibility
    factor, a positive cosine between normal and light direction, positive
    intensity, positive albedo and nonnegative light color contributes a
    positive amount that is the product of a fixed color with
    cosine times intensity over squared distance times visibility. -/
theorem lightContribution_shadow_correctness (cfg : ParallelRenderer) (rng : ℕ → Vec3 ℝ)
    (hit : HitRecord ℝ RayTrace.Material) (light : Light) (hittables : List HittableR) :
    ((hitWorldR hittables ⟨hit.Point, lightDirOf hit light⟩ 0.001
        ((lightDistanceOf hit light : ℝ) : WithTop ℝ)).isSome = true →
      lightContribution cfg rng hit light hittables = vzero) ∧
    (¬ lightDistanceOf hit light < 0.001 →
      0 < calculateSmartShadow cfg rng hit light hittables →
      0 < hit.Normal.Dot (lightDirOf hit light) →
      0 < light.Intensity →
      0 < hit.Material.GetAlbedo.X → 0 < hit.Material.GetAlbedo.Y →
      0 < hit.Material.GetAlbedo.Z →
      0 ≤ light.Color.X → 0 ≤ light.Color.Y → 0 ≤ light.Color.Z →
      (lightContribution cfg rng hit light hittables =
          ((hit.Material.GetAlbedo.MulScalar (diffuseStrength hit.Material.GetMetallic)).Add
            (specularTerm hit light)).MulScalar
            (hit.Normal.Dot (lightDirOf hit light) * light.Intensity /
              (lightDistanceOf hit light * lightDistanceOf hit light) *
              calculateSmartShadow cfg rng hit light hittables) ∧
        0 < (lightContribution cfg rng hit light hittables).X ∧
        0 < (lightContribution cfg rng hit light hittables).Y ∧
        0 < (lightContribution cfg rng hit light hittables).Z)) := by
  constructor
  · intro hocc
    simp only [lightDirOf, lightDistanceOf] at hocc
    simp only [lightContribution]
    by_cases hd : (light.Position.Sub hit.Point).Length < 0.001
    · rw [if_pos hd]
    · rw [if_neg hd]
      have hs0 : calculateSmartShadow cfg rng hit light hittables = 0 := by
        simp only [calculateSmartShadow]
        rw [if_pos hocc]
      rw [hs0, if_neg (lt_irrefl 0)]
  · intro hd hs hdot hI haX haY haZ hcX hcY hcZ
    simp only [lightDirOf, lightDistanceOf] at hd hdot
    have hmax : max 0 (hit.Normal.Dot ((light.Position.Sub hit.Point).Normalize)) =
        hit.Normal.Dot ((light.Position.Sub hit.Point).Normalize) :=
      max_eq_right (le_of_lt hdot)
    have hval : lightContribution cfg rng hit light hittables =
        ((hit.Material.GetAlbedo.MulScalar (diffuseStrength hit.Material.GetMetallic)).Add
          (specularTerm hit light)).MulScalar
          (hit.Normal.Dot ((light.Position.Sub hit.Point).Normalize) * light.Intensity /
            ((light.Position.Sub hit.Point).Length * (light.Position.Sub hit.Point).Length) *
            calculateSmartShadow cfg rng hit light hittables) := by
      simp only [lightContribution]
      rw [if_neg hd, if_pos hs, hmax]
      by_cases hm : (1 : ℝ) / 2 < hit.Material.GetMetallic
      · rw [if_pos hm]
        simp only [specularTerm, lightDirOf, if_pos hm]
        simp only [Vec3.Add, Vec3.MulScalar, Vec3.mk.injEq]
        refine ⟨by ring, by ring, by ring⟩
      · rw [if_neg hm]
        simp only [specularTerm, lightDirOf, if_neg hm, vzero]
        simp only [Vec3.Add, Vec3.MulScalar, Vec3.mk.injEq]
        refine ⟨by ring, by ring, by ring⟩
    have hdpos : 0 < (light.Position.Sub hit.Point).Length := by
      have h0 : (0.001 : ℝ) ≤ (light.Position.Sub hit.Point).Length := not_lt.mp hd
      linarith
    have ht : 0 < hit.Normal.Dot ((light.Position.Sub hit.Point).Normalize) *
        light.Intensity /
        ((light.Position.Sub hit.Point).Length * (light.Position.Sub hit.Point).Length) *
        calculateSmartShadow cfg rng hit light hittables :=
      mul_pos (div_pos (mul_pos hdot hI) (mul_pos hdpos hdpos)) hs
    have hspec : 0 ≤ (specularTerm hit light).X ∧ 0 ≤ (specularTerm hit light).Y ∧
        0 ≤ (specularTerm hit light).Z := by
      simp only [specularTerm]
      split_ifs with hm
      · have hp : (0 : ℝ) ≤ (max 0 (hit.Normal.Dot
            (((lightDirOf hit light).Add ((hit.Point.MulScalar (-1)).Normalize)).Normalize))) ^
            specularPower hit.Material.GetMetallic :=
          pow_nonneg (le_max_left 0 _) _
        have hm0 : (0 : ℝ) ≤ hit.Material.GetMetallic := by linarith
        simp only [Vec3.MulScalar]
        exact ⟨mul_nonneg hcX (mul_nonneg (mul_nonneg hp hm0) (by norm_num)),
          mul_nonneg hcY (mul_nonneg (mul_nonneg hp hm0) (by norm_num)),
          mul_nonneg hcZ (mul_nonneg (mul_nonneg hp hm0) (by norm_num))⟩
      · simp [vzero]
    have hds := diffuseStrength_pos hit.Material.GetMetallic
    refine ⟨by simpa only [lightDirOf, lightDistanceOf] using hval, ?_, ?_, ?_⟩
    · rw [hval]
      simp only [Vec3.Add, Vec3.MulScalar]
      exact mul_pos (add_pos_of_pos_of_nonneg (mul_pos haX hds) hspec.1) ht
    · rw [hval]
      simp only [Vec3.Add, Vec3.MulScalar]
      exact mul_pos (add_pos_of_pos_of_nonneg (mul_pos haY hds) hspec.2.1) ht
    · rw [hval]
      simp only [Vec3.Add, Vec3.MulScalar]
      exact mul_pos (add_pos_of_pos_of_nonneg (mul_pos haZ hds) hspec.2.2) ht

theorem lightContribution_shadow_correctness_witness :
    (hitWorldR [blockerP] ⟨hitFacing.Point, lightDirOf hitFacing lightX⟩ 0.001
        ((lightDistanceOf hitFacing lightX : ℝ) : WithTop ℝ)).isSome = true ∧
      lightContribution (NewParallelRenderer 4) rng0 hitFacing lightX [blockerP] = vzero ∧
      ¬ lightDistanceOf hitFacing lightX < 0.001 ∧
      0 < calculateSmartShadow (NewParallelRenderer 4) rng0 hitFacing lightX [] ∧
      0 < hitFacing.Normal.Dot (lightDirOf hitFacing lightX) ∧
      0 < lightX.Intensity ∧
      (lightContribution (NewParallelRenderer 4) rng0 hitFacing lightX [] =
          ((hitFacing.Material.GetAlbedo.MulScalar
            (diffuseStrength hitFacing.Material.GetMetallic)).Add
            (specularTerm hitFacing lightX)).MulScalar
            (hitFacing.Normal.Dot (lightDirOf hitFacing lightX) * lightX.Intensity /
              (lightDistanceOf hitFacing lightX * lightDistanceOf hitFacing lightX) *
              calculateSmartShadow (NewParallelRenderer 4) rng0 hitFacing lightX []) ∧
        0 < (lightContribution (NewParallelRenderer 4) rng0 hitFacing lightX []).X ∧
        0 < (lightContribution (NewParallelRenderer 4) rng0 hitFacing lightX []).Y ∧
        0 < (lightContribution (NewParallelRenderer 4) rng0 hitFacing lightX []).Z) := by
  have hpt : hitFacing.Point = (⟨0, 0, 0⟩ : Vec3 ℝ) := rfl
  have hdist : lightDistanceOf hitFacing lightX = 1 := by
    simp only [lightDistanceOf, hpt, lightX_geometry.1, lightX_geometry.2.1]
  have hdir : lightDirOf hitFacing lightX = ⟨1, 0, 0⟩ := by
    simp only [lightDirOf, hpt, lightX_geometry.1, lightX_geometry.2.2]
  have hocc : (hitWorldR [blockerP] ⟨hitFacing.Point, lightDirOf hitFacing lightX⟩ 0.001
      ((lightDistanceOf hitFacing lightX : ℝ) : WithTop ℝ)).isSome = true := by
    rw [hdist]
    simp only [hitWorldR, hwGoR, blockerP]
    rw [if_pos ⟨by norm_num, by
      exact_mod_cast (by norm_num : ((1 : ℝ) / 2 : ℝ) ≤ 1)⟩]
    rfl
  have hd' : ¬ lightDistanceOf hitFacing lightX < 0.001 := by
    rw [hdist]
    norm_num
  have hs' : 0 < calculateSmartShadow (NewParallelRenderer 4) rng0 hitFacing lightX [] := by
    rw [calculateSmartShadow_nil]
    norm_num
  have hdot' : 0 < hitFacing.Normal.Dot (lightDirOf hitFacing lightX) := by
    rw [hdir]
    norm_num [hitFacing, Vec3.Dot]
  have hI' : 0 < lightX.Intensity := by norm_num [lightX]
  have haX : 0 < hitFacing.Material.GetAlbedo.X := by norm_num [hitFacing, matDiffuse]
  have haY : 0 < hitFacing.Material.GetAlbedo.Y := by norm_num [hitFacing, matDiffuse]
  have haZ : 0 < hitFacing.Material.GetAlbedo.Z := by norm_num [hitFacing, matDiffuse]
  have hcX : 0 ≤ lightX.Color.X := by norm_num [lightX]
  have hcY : 0 ≤ lightX.Color.Y := by norm_num [lightX]
  have hcZ : 0 ≤ lightX.Color.Z := by norm_num [lightX]
  exact ⟨hocc,
    (lightContribution_shadow_correctness (NewParallelRenderer 4) rng0 hitFacing lightX
      [blockerP]).1 hocc,
    hd', hs', hdot', hI',
    (lightContribution_shadow_correctness (NewParallelRenderer 4) rng0 hitFacing lightX
      []).2 hd' hs' hdot' hI' haX haY haZ hcX hcY hcZ⟩

theorem slabFold_mem (o d lo hi t : α) (s : Option (α × α))
    (hlo : lo ≤ o + d * t) (hhi : o + d * t ≤ hi)
    (hs : ∃ q, s = some q ∧ q.1 ≤ t ∧ t ≤ q.2) :
    ∃ q, slabFold o d lo hi s = some q ∧ q.1 ≤ t ∧ t ≤ q.2 := by
  obtain ⟨⟨t0, t1⟩, rfl, h0, h1⟩ := hs
  simp only [slabFold]
  by_cases hd : d = 0
  · subst hd
    rw [if_pos rfl, if_pos ⟨by linarith, by linarith⟩]
    exact ⟨(t0, t1), rfl, h0, h1⟩
  · rw [if_neg hd]
    have hcomm : d * t = t * d := mul_comm d t
    have hmin : min ((lo - o) / d) ((hi - o) / d) ≤ t := by
      rcases lt_or_gt_of_ne hd with hneg | hpos
      · exact le_trans (min_le_right _ _) ((div_le_iff_of_neg hneg).mpr (by linarith))
      · exact le_trans (min_le_left _ _) ((div_le_iff₀ hpos).mpr (by linarith))
    have hmax : t ≤ max ((lo - o) / d) ((hi - o) / d) := by
      rcases lt_or_gt_of_ne hd with hneg | hpos
      · exact le_trans ((le_div_iff_of_neg hneg).mpr (by linarith)) (le_max_left _ _)
      · exact le_trans ((le_div_iff₀ hpos).mpr (by linarith)) (le_max_right _ _)
    rw [if_pos (le_trans (max_le h0 hmin) (le_min h1 hmax))]
    exact ⟨_, rfl, max_le h0 hmin, le_min h1 hmax⟩

theorem aabbHit_sound (box : AABB α) (r : Ray α) (tMin tMax t : α)
    (h0 : tMin ≤ t) (h1 : t ≤ tMax) (hin : inBox box (r.At t)) :
    aabbHit box r tMin tMax = true := by
  obtain ⟨hx0, hx1, hy0, hy1, hz0, hz1⟩ := hin
  simp only [Ray.At, Vec3.Add, Vec3.MulScalar] at hx0 hx1 hy0 hy1 hz0 hz1
  unfold aabbHit
  have e0 : ∃ q, (if tMin ≤ tMax then some (tMin, tMax) else none) = some q ∧
      q.1 ≤ t ∧ t ≤ q.2 :=
    ⟨(tMin, tMax), if_pos (le_trans h0 h1), h0, h1⟩
  have e1 := slabFold_mem r.Origin.X r.Direction.X box.Min.X box.Max.X t _
    (by linarith [mul_comm r.Direction.X t]) (by linarith [mul_comm r.Direction.X t]) e0
  have e2 := slabFold_mem r.Origin.Y r.Direction.Y box.Min.Y box.Max.Y t _
    (by linarith [mul_comm r.Direction.Y t]) (by linarith [mul_comm r.Direction.Y t]) e1
  have e3 := slabFold_mem r.Origin.Z r.Direction.Z box.Min.Z box.Max.Z t _
    (by linarith [mul_comm r.Direction.Z t]) (by linarith [mul_comm r.Direction.Z t]) e2
  obtain ⟨q, hq, _⟩ := e3
  rw [hq]
  rfl

theorem AABB.Subset.rfl (b : AABB α) : b.Subset b := by
  unfold AABB.Subset
  refine ⟨le_refl _, le_refl _, le_refl _, le_refl _, le_refl _, le_refl _⟩

theorem AABB.Subset.trans {a b c : AABB α} (h1 : a.Subset b) (h2 : b.Subset c) :
    a.Subset c := by
  unfold AABB.Subset at *
  obtain ⟨p1, p2, p3, p4, p5, p6⟩ := h1
  obtain ⟨q1, q2, q3, q4, q5, q6⟩ := h2
  exact ⟨le_trans q1 p1, le_trans p2 q2, le_trans q3 p3, le_trans p4 q4,
    le_trans q5 p5, le_trans p6 q6⟩

theorem FastMin_le_left (a b : α) : FastMin a b ≤ a := by
  unfold FastMin
  split_ifs with h
  · exact le_refl a
  · exact le_of_not_lt h

theorem FastMin_le_right (a b : α) : FastMin a b ≤ b := by
  unfold FastMin
  split_ifs with h
  · exact le_of_lt h
  · exact le_refl b

theorem le_FastMax_left (a b : α) : a ≤ FastMax a b := by
  unfold FastMax
  split_ifs with h
  · exact le_refl a
  · exact le_of_not_lt h

theorem le_FastMax_right (a b : α) : b ≤ FastMax a b := by
  unfold FastMax
  split_ifs with h
  · exact le_of_lt h
  · exact le_refl b

theorem subset_surrounding_left (b0 b1 : AABB α) : b0.Subset (surroundingBox b0 b1) := by
  unfold AABB.Subset surroundingBox
  exact ⟨FastMin_le_left _ _, le_FastMax_left _ _, FastMin_le_left _ _, le_FastMax_left _ _,
    FastMin_le_left _ _, le_FastMax_left _ _⟩

theorem subset_surrounding_right (b0 b1 : AABB α) : b1.Subset (surroundingBox b0 b1) := by
  unfold AABB.Subset surroundingBox
  exact ⟨FastMin_le_right _ _, le_FastMax_right _ _, FastMin_le_right _ _, le_FastMax_right _ _,
    FastMin_le_right _ _, le_FastMax_right _ _⟩

theorem inBox_mono {b c : AABB α} {p : Vec3 α} (hsub : b.Subset c) (hp : inBox b p) :
    inBox c p := by
  unfold AABB.Subset at hsub
  unfold inBox at *
  obtain ⟨q1, q2, q3, q4, q5, q6⟩ := hsub
  obtain ⟨p1, p2, p3, p4, p5, p6⟩ := hp
  exact ⟨le_trans q1 p1, le_trans p2 q2, le_trans q3 p3, le_trans p4 q4,
    le_trans q5 p5, le_trans p6 q6⟩

theorem subset_boundFold (init : AABB α) (l : List (Hittable α μ)) :
    init.Subset (l.foldl (fun b q => surroundingBox b q.BoundingBox) init) := by
  induction l generalizing init with
  | nil => exact AABB.Subset.rfl init
  | cons o l ih =>
    exact AABB.Subset.trans (subset_surrounding_left _ _) (ih _)

theorem mem_subset_boundFold (init : AABB α) (l : List (Hittable α μ)) (o : Hittable α μ)
    (ho : o ∈ l) :
    o.BoundingBox.Subset (l.foldl (fun b q => surroundingBox b q.BoundingBox) init) := by
  induction l generalizing init with
  | nil => cases ho
  | cons p l ih =>
    rcases List.mem_cons.mp ho with rfl | hm
    · exact AABB.Subset.trans (subset_surrounding_right _ _) (subset_boundFold _ _)
    · exact ih _ hm

theorem newBVH_spec : ∀ (n : ℕ) (objects : List (Hittable α μ)) (t : BVHTree α μ),
    objects.length ≤ n → NewBVH objects = some t →
    t.leaves = objects ∧ t.goodBoxes ∧ (∀ o ∈ objects, o.BoundingBox.Subset t.box) := by
  intro n
  induction n with
  | zero =>
    intro objects t hlen hb
    match objects, hlen with
    | [], _ => simp [NewBVH] at hb
  | succ n ih =>
    intro objects t hlen hb
    match objects with
    | [] => simp [NewBVH] at hb
    | [o] =>
      simp only [NewBVH, Option.some.injEq] at hb
      subst hb
      refine ⟨rfl, AABB.Subset.rfl _, ?_⟩
      intro o2 ho2
      rcases List.mem_singleton.mp ho2 with rfl
      exact AABB.Subset.rfl _
    | o :: o2 :: rest =>
      rw [NewBVH] at hb
      cases hL : NewBVH ((o :: o2 :: rest).take ((o :: o2 :: rest).length / 2)) with
      | none => rw [hL] at hb; cases hb
      | some lt =>
        cases hR : NewBVH ((o :: o2 :: rest).drop ((o :: o2 :: rest).length / 2)) with
        | none => rw [hL, hR] at hb; cases hb
        | some rt =>
          rw [hL, hR] at hb
          simp only [Option.some.injEq] at hb
          subst hb
          have hlen2 : (o :: o2 :: rest).length = rest.length + 2 := by simp
          have hLlen : ((o :: o2 :: rest).take ((o :: o2 :: rest).length / 2)).length ≤ n := by
            simp only [List.length_take, hlen2]
            simp only [List.length_cons] at hlen
            omega
          have hRlen : ((o :: o2 :: rest).drop ((o :: o2 :: rest).length / 2)).length ≤ n := by
            simp only [List.length_drop, hlen2]
            simp only [List.length_cons] at hlen
            omega
          obtain ⟨hLl, hLg, _⟩ := ih _ _ hLlen hL
          obtain ⟨hRl, hRg, _⟩ := ih _ _ hRlen hR
          have hleaves : (BVHTree.node lt rt
              ((o2 :: rest).foldl (fun b q => surroundingBox b q.BoundingBox)
                o.BoundingBox)).leaves = o :: o2 :: rest := by
            simp only [BVHTree.leaves, hLl, hRl]
            exact List.take_append_drop _ _
          have hmem : ∀ q ∈ o :: o2 :: rest, q.BoundingBox.Subset
              ((o2 :: rest).foldl (fun b q => surroundingBox b q.BoundingBox)
                o.BoundingBox) := by
            intro q hq
            rcases List.mem_cons.mp hq with rfl | hq2
            · exact subset_boundFold _ _
            · exact mem_subset_boundFold _ _ _ hq2
          refine ⟨hleaves, ⟨hLg, hRg, ?_, ?_⟩, ?_⟩
          · intro q hq
            apply hmem
            rw [hLl] at hq
            exact List.take_subset _ _ hq
          · intro q hq
            apply hmem
            rw [hRl] at hq
            exact List.drop_subset _ _ hq
          · intro q hq
            exact hmem q hq

theorem hwGo_shape (r : Ray α) (tMin : α) (os : List (Hittable α μ)) :
    ∀ s : Option (HitRecord α μ) × α,
      hwGo r tMin os s = s ∨ ∃ rc, hwGo r tMin os s = (some rc, rc.T) := by
  induction os with
  | nil => intro s; left; rfl
  | cons o os ih =>
    intro s
    simp only [hwGo]
    cases ho : o.Hit r tMin s.2 with
    | none => exact ih s
    | some rc =>
      rcases ih (some rc, rc.T) with h | h
      · right; exact ⟨rc, h⟩
      · right; exact h

theorem hwGo_append (r : Ray α) (tMin : α) (L R : List (Hittable α μ))
    (s : Option (HitRecord α μ) × α) :
    hwGo r tMin (L ++ R) s = hwGo r tMin R (hwGo r tMin L s) := by
  induction L generalizing s with
  | nil => rfl
  | cons o L ih =>
    simp only [List.cons_append, hwGo]
    exact ih _

theorem hwGo_start (r : Ray α) (tMin : α) (os : List (Hittable α μ))
    (rc0 : HitRecord α μ) (t0 : α) :
    hwGo r tMin os (some rc0, t0) =
      match hwGo r tMin os ((none : Option (HitRecord α μ)), t0) with
      | (some rc, t) => (some rc, t)
      | (none, _) => (some rc0, t0) := by
  induction os generalizing rc0 t0 with
  | nil => rfl
  | cons o os ih =>
    simp only [hwGo]
    cases ho : o.Hit r tMin t0 with
    | none => exact ih rc0 t0
    | some rc =>
      rw [ih rc rc.T]
      rcases hwGo_shape r tMin os ((none : Option (HitRecord α μ)), rc.T) with he | ⟨rc2, he⟩
      · simp [he]
      · simp [he]

theorem hitWorld_cons (r : Ray α) (tMin tMax : α) (o : Hittable α μ)
    (os : List (Hittable α μ)) :
    hitWorld (o :: os) r tMin tMax =
      match o.Hit r tMin tMax with
      | none => hitWorld os r tMin tMax
      | some rc =>
        match hitWorld os r tMin rc.T with
        | some rc2 => some rc2
        | none => some rc := by
  unfold hitWorld
  simp only [hwGo]
  cases ho : o.Hit r tMin tMax with
  | none => rfl
  | some rc =>
    rw [hwGo_start]
    rcases hwGo_shape r tMin os ((none : Option (HitRecord α μ)), rc.T) with he | ⟨rc2, he⟩
    · simp [ho, he]
    · simp [ho, he]

theorem hitWorld_append (r : Ray α) (tMin tMax : α) (L R : List (Hittable α μ)) :
    hitWorld (L ++ R) r tMin tMax =
      match hitWorld L r tMin tMax with
      | none => hitWorld R r tMin tMax
      | some rcL =>
        match hitWorld R r tMin rcL.T with
        | some rcR => some rcR
        | none => some rcL := by
  unfold hitWorld
  rw [hwGo_append]
  rcases hwGo_shape r tMin L ((none : Option (HitRecord α μ)), tMax) with he | ⟨rcL, he⟩
  · simp [he]
  · rw [he, hwGo_start]
    rcases hwGo_shape r tMin R ((none : Option (HitRecord α μ)), rcL.T) with h2 | ⟨rcR, h2⟩
    · simp [he, h2]
    · simp [he, h2]

theorem hitWorld_t_mem : ∀ (objects : List (Hittable α μ)),
    (∀ o ∈ objects, LawfulHittable o) → ∀ (r : Ray α) (tMin tMax : α) (rc : HitRecord α μ),
    hitWorld objects r tMin tMax = some rc → tMin ≤ rc.T ∧ rc.T ≤ tMax := by
  intro objects
  induction objects with
  | nil =>
    intro _ r tMin tMax rc h
    cases h
  | cons o os ih =>
    intro hl r tMin tMax rc h
    have hlo := hl o (List.mem_cons_self o os)
    have hlos : ∀ o2 ∈ os, LawfulHittable o2 :=
      fun o2 ho2 => hl o2 (List.mem_cons_of_mem _ ho2)
    rw [hitWorld_cons] at h
    cases ho : o.Hit r tMin tMax with
    | none =>
      simp only [ho] at h
      exact ih hlos r tMin tMax rc h
    | some rc1 =>
      simp only [ho] at h
      have hb1 := hlo.hit_t_mem r tMin tMax rc1 ho
      cases hs : hitWorld os r tMin rc1.T with
      | some rc2 =>
        simp only [hs] at h
        cases h
        have hb2 := ih hlos r tMin rc1.T rc hs
        exact ⟨hb2.1, le_trans hb2.2 hb1.2⟩
      | none =>
        simp only [hs] at h
        cases h
        exact hb1

theorem hitWorld_tighten_none : ∀ (objects : List (Hittable α μ)),
    (∀ o ∈ objects, LawfulHittable o) → ∀ (r : Ray α) (tMin tMax tM : α), tM ≤ tMax →
    hitWorld objects r tMin tMax = none → hitWorld objects r tMin tM = none := by
  intro objects
  induction objects with
  | nil => intro _ r tMin tMax tM _ _; rfl
  | cons o os ih =>
    intro hl r tMin tMax tM htM h
    have hlo := hl o (List.mem_cons_self o os)
    have hlos : ∀ o2 ∈ os, LawfulHittable o2 :=
      fun o2 ho2 => hl o2 (List.mem_cons_of_mem _ ho2)
    rw [hitWorld_cons] at h
    rw [hitWorld_cons]
    cases ho : o.Hit r tMin tMax with
    | none =>
      simp only [ho] at h
      simp only [hlo.hit_none_tighten r tMin tMax tM htM ho]
      exact ih hlos r tMin tMax tM htM h
    | some rc1 =>
      exfalso
      simp only [ho] at h
      cases hs : hitWorld os r tMin rc1.T with
      | some rc2 =>
        simp only [hs] at h
        exact Option.noConfusion h
      | none =>
        simp only [hs] at h
        exact Option.noConfusion h

theorem hitWorld_tighten_far : ∀ (objects : List (Hittable α μ)),
    (∀ o ∈ objects, LawfulHittable o) →
    ∀ (r : Ray α) (tMin tMax tM : α) (rc : HitRecord α μ), tM ≤ tMax →
    hitWorld objects r tMin tMax = some rc → tM < rc.T →
    hitWorld objects r tMin tM = none := by
  intro objects
  induction objects with
  | nil => intro _ r tMin tMax tM rc _ h; cases h
  | cons o os ih =>
    intro hl r tMin tMax tM rc htM h hfar
    have hlo := hl o (List.mem_cons_self o os)
    have hlos : ∀ o2 ∈ os, LawfulHittable o2 :=
      fun o2 ho2 => hl o2 (List.mem_cons_of_mem _ ho2)
    rw [hitWorld_cons] at h
    rw [hitWorld_cons]
    cases ho : o.Hit r tMin tMax with
    | none =>
      simp only [ho] at h
      simp only [hlo.hit_none_tighten r tMin tMax tM htM ho]
      exact ih hlos r tMin tMax tM rc htM h hfar
    | some rc1 =>
      simp only [ho] at h
      cases hs : hitWorld os r tMin rc1.T with
      | some rc2 =>
        simp only [hs] at h
        cases h
        have hb2 := hitWorld_t_mem os hlos r tMin rc1.T rc hs
        have hfar1 : tM < rc1.T := lt_of_lt_of_le hfar hb2.2
        simp only [hlo.hit_far_tighten r tMin tMax tM rc1 htM ho hfar1]
        exact ih hlos r tMin rc1.T tM rc (le_of_lt hfar1) hs hfar
      | none =>
        simp only [hs] at h
        cases h
        simp only [hlo.hit_far_tighten r tMin tMax tM rc htM ho hfar]
        exact hitWorld_tighten_none os hlos r tMin rc.T tM (le_of_lt hfar) hs

theorem hitWorld_tighten_some : ∀ (objects : List (Hittable α μ)),
    (∀ o ∈ objects, LawfulHittable o) →
    ∀ (r : Ray α) (tMin tMax tM : α) (rc : HitRecord α μ), tM ≤ tMax →
    hitWorld objects r tMin tMax = some rc → rc.T ≤ tM →
    hitWorld objects r tMin tM = some rc := by
  intro objects
  induction objects with
  | nil => intro _ r tMin tMax tM rc _ h; cases h
  | cons o os ih =>
    intro hl r tMin tMax tM rc htM h hle
    have hlo := hl o (List.mem_cons_self o os)
    have hlos : ∀ o2 ∈ os, LawfulHittable o2 :=
      fun o2 ho2 => hl o2 (List.mem_cons_of_mem _ ho2)
    rw [hitWorld_cons] at h
    rw [hitWorld_cons]
    cases ho : o.Hit r tMin tMax with
    | none =>
      simp only [ho] at h
      simp only [hlo.hit_none_tighten r tMin tMax tM htM ho]
      exact ih hlos r tMin tMax tM rc htM h hle
    | some rc1 =>
      simp only [ho] at h
      cases hs : hitWorld os r tMin rc1.T with
      | some rc2 =>
        simp only [hs] at h
        cases h
        by_cases h1 : rc1.T ≤ tM
        · simp only [hlo.hit_tighten r tMin tMax tM rc1 htM ho h1, hs]
        · have hfar1 : tM < rc1.T := lt_of_not_le h1
          simp only [hlo.hit_far_tighten r tMin tMax tM rc1 htM ho hfar1]
          exact ih hlos r tMin rc1.T tM rc (le_of_lt hfar1) hs hle
      | none =>
        simp only [hs] at h
        cases h
        simp only [hlo.hit_tighten r tMin tMax tM rc htM ho hle, hs]

theorem hitWorld_member : ∀ (objects : List (Hittable α μ)),
    (∀ o ∈ objects, LawfulHittable o) →
    ∀ (r : Ray α) (tMin tMax : α) (rc : HitRecord α μ),
    hitWorld objects r tMin tMax = some rc →
    ∃ o ∈ objects, ∃ t0, t0 ≤ tMax ∧ o.Hit r tMin t0 = some rc := by
  intro objects
  induction objects with
  | nil => intro _ r tMin tMax rc h; cases h
  | cons o os ih =>
    intro hl r tMin tMax rc h
    have hlo := hl o (List.mem_cons_self o os)
    have hlos : ∀ o2 ∈ os, LawfulHittable o2 :=
      fun o2 ho2 => hl o2 (List.mem_cons_of_mem _ ho2)
    rw [hitWorld_cons] at h
    cases ho : o.Hit r tMin tMax with
    | none =>
      simp only [ho] at h
      obtain ⟨o2, hmem, t0, ht0, hhit⟩ := ih hlos r tMin tMax rc h
      exact ⟨o2, List.mem_cons_of_mem _ hmem, t0, ht0, hhit⟩
    | some rc1 =>
      simp only [ho] at h
      have hb1 := hlo.hit_t_mem r tMin tMax rc1 ho
      cases hs : hitWorld os r tMin rc1.T with
      | some rc2 =>
        simp only [hs] at h
        cases h
        obtain ⟨o2, hmem, t0, ht0, hhit⟩ := ih hlos r tMin rc1.T rc hs
        exact ⟨o2, List.mem_cons_of_mem _ hmem, t0, le_trans ht0 hb1.2, hhit⟩
      | none =>
        simp only [hs] at h
        cases h
        exact ⟨o, List.mem_cons_self o os, tMax, le_refl _, ho⟩

theorem hitBVH_eq_hitWorld_leaves : ∀ (t : BVHTree α μ), t.goodBoxes →
    (∀ o ∈ t.leaves, LawfulHittable o) → ∀ (r : Ray α) (tMin tMax : α),
    t.hitBVH r tMin tMax = hitWorld t.leaves r tMin tMax := by
  intro t
  induction t with
  | leaf o box =>
    intro hg hl r tMin tMax
    have hlo : LawfulHittable o := hl o (List.mem_cons_self o [])
    have hw1 : hitWorld [o] r tMin tMax = o.Hit r tMin tMax := by
      rw [hitWorld_cons]
      cases ho : o.Hit r tMin tMax with
      | none => rfl
      | some rc => rfl
    simp only [BVHTree.leaves, hw1]
    by_cases hb : aabbHit box r tMin tMax
    · simp only [BVHTree.hitBVH, hb, if_true]
    · simp only [BVHTree.hitBVH, hb, if_false]
      cases ho : o.Hit r tMin tMax with
      | none => rfl
      | some rc =>
        exfalso
        have hbd := hlo.hit_t_mem r tMin tMax rc ho
        have hin := hlo.hit_in_box r tMin tMax rc ho
        have hsub : o.BoundingBox.Subset box := hg
        exact hb (aabbHit_sound box r tMin tMax rc.T hbd.1 hbd.2 (inBox_mono hsub hin))
  | node l rt box ihl ihr =>
    intro hg hl r tMin tMax
    obtain ⟨hgl, hgr, hsl, hsr⟩ := hg
    have hll : ∀ o ∈ l.leaves, LawfulHittable o := fun o ho =>
      hl o (by simp only [BVHTree.leaves, List.mem_append]; exact Or.inl ho)
    have hlr : ∀ o ∈ rt.leaves, LawfulHittable o := fun o ho =>
      hl o (by simp only [BVHTree.leaves, List.mem_append]; exact Or.inr ho)
    simp only [BVHTree.leaves]
    by_cases hb : aabbHit box r tMin tMax
    · simp only [BVHTree.hitBVH, hb, if_true]
      rw [ihl hgl hll r tMin tMax, ihr hgr hlr r tMin tMax, hitWorld_append]
      cases hsL : hitWorld l.leaves r tMin tMax with
      | none =>
        cases hsR : hitWorld rt.leaves r tMin tMax with
        | none => rfl
        | some rcR => rfl
      | some rcL =>
        have hbL := hitWorld_t_mem l.leaves hll r tMin tMax rcL hsL
        cases hsR : hitWorld rt.leaves r tMin tMax with
        | none =>
          have hn : hitWorld rt.leaves r tMin rcL.T = none :=
            hitWorld_tighten_none rt.leaves hlr r tMin tMax rcL.T hbL.2 hsR
          simp only [hn]
        | some rcR =>
          by_cases hlt : rcL.T < rcR.T
          · have hn : hitWorld rt.leaves r tMin rcL.T = none :=
              hitWorld_tighten_far rt.leaves hlr r tMin tMax rcL.T rcR hbL.2 hsR hlt
            simp only [hn, if_pos hlt]
          · have hle2 : rcR.T ≤ rcL.T := le_of_not_lt hlt
            have hsame : hitWorld rt.leaves r tMin rcL.T = some rcR :=
              hitWorld_tighten_some rt.leaves hlr r tMin tMax rcL.T rcR hbL.2 hsR hle2
            simp only [hsame, if_neg hlt]
    · simp only [BVHTree.hitBVH, hb, if_false]
      cases hs : hitWorld (l.leaves ++ rt.leaves) r tMin tMax with
      | none => rfl
      | some rc =>
        exfalso
        have hlboth : ∀ o ∈ l.leaves ++ rt.leaves, LawfulHittable o := by
          intro o ho
          rcases List.mem_append.mp ho with h1 | h1
          · exact hll o h1
          · exact hlr o h1
        obtain ⟨o, hom, t0, ht0, hohit⟩ :=
          hitWorld_member (l.leaves ++ rt.leaves) hlboth r tMin tMax rc hs
        have hbd := (hlboth o hom).hit_t_mem r tMin t0 rc hohit
        have hin := (hlboth o hom).hit_in_box r tMin t0 rc hohit
        have hsub : o.BoundingBox.Subset box := by
          rcases List.mem_append.mp hom with h1 | h1
          · exact hsl o h1
          · exact hsr o h1
        exact hb (aabbHit_sound box r tMin tMax rc.T hbd.1 (le_trans hbd.2 ht0)
          (inBox_mono hsub hin))

/-- C1: for every scene over which the BVH builds, every ray and every
    interval, the BVH traversal returns exactly the record, with its
    parameter and primitive identity, that the naive linear scan over all
    primitives returns, provided every primitive obeys the interface
    contract of the specification (earliest root in the interval, hits
    inside the bounding box, consistent under interval restriction). -/
theorem bvh_hit_eq_linear_scan (objects : List (Hittable α μ)) (t : BVHTree α μ)
    (hb : NewBVH objects = some t) (hl : ∀ o ∈ objects, LawfulHittable o)
    (r : Ray α) (tMin tMax : α) :
    t.hitBVH r tMin tMax = hitWorld objects r tMin tMax := by
  obtain ⟨hleaves, hgood, _⟩ := newBVH_spec objects.length objects t (le_refl _) hb
  rw [← hleaves]
  exact hitBVH_eq_hitWorld_leaves t hgood (by rw [hleaves]; exact hl) r tMin tMax

theorem lawful_const_none (o : Hittable α μ) (h : ∀ r a b, o.Hit r a b = none) :
    LawfulHittable o := by
  constructor
  · intro r tMin tMax rc hrc
    rw [h] at hrc
    cases hrc
  · intro r tMin tMax rc hrc
    rw [h] at hrc
    cases hrc
  · intro r tMin tMax tM rc _ hrc
    rw [h] at hrc
    cases hrc
  · intro r tMin tMax tM _ _
    exact h r tMin tM
  · intro r tMin tMax tM rc _ hrc
    rw [h] at hrc
    cases hrc

theorem bvh_hit_eq_linear_scan_witness :
    NewBVH [missP, missQ] =
        some (BVHTree.node (BVHTree.leaf missP missP.BoundingBox)
          (BVHTree.leaf missQ missQ.BoundingBox)
          (surroundingBox missP.BoundingBox missQ.BoundingBox)) ∧
      (∀ o ∈ [missP, missQ], LawfulHittable o) ∧
      (BVHTree.node (BVHTree.leaf missP missP.BoundingBox)
          (BVHTree.leaf missQ missQ.BoundingBox)
          (surroundingBox missP.BoundingBox missQ.BoundingBox)).hitBVH rayXQ 0 100 =
        hitWorld [missP, missQ] rayXQ 0 100 := by
  have hb : NewBVH [missP, missQ] =
      some (BVHTree.node (BVHTree.leaf missP missP.BoundingBox)
        (BVHTree.leaf missQ missQ.BoundingBox)
        (surroundingBox missP.BoundingBox missQ.BoundingBox)) := by
    simp [NewBVH]
  have hl : ∀ o ∈ [missP, missQ], LawfulHittable o := by
    intro o ho
    rcases List.mem_cons.mp ho with rfl | ho2
    · exact lawful_const_none _ (fun r a b => rfl)
    rcases List.mem_cons.mp ho2 with rfl | ho3
    · exact lawful_const_none _ (fun r a b => rfl)
    cases ho3
  exact ⟨hb, hl, bvh_hit_eq_linear_scan [missP, missQ] _ hb hl rayXQ 0 100⟩

end RayTrace
